import Mathlib

/-!
# Verification of the deno-watch polling file-change detector (mod.ts)

Shallow embedding of `mod.ts`.  JavaScript objects used as string-keyed
maps (`this.files`, `prev`, `curr`, `all`) are embedded as association
lists (`Jobj`); JS truthiness tests on possibly-undefined numbers and
strings are embedded explicitly (`jsTruthyN`, `jsTruthyS`, `jsOrS`);
the Deno filesystem calls (`lstat`, `readlink`, `readDir`) are an
abstract record of functions (`FS`).  The unboundedly recursive
functions of the source (`statTraverse`, `walk`, `collect`) take a fuel
argument; a result of `none` means the source recursion did not finish
within that fuel (in particular `(∀ fuel, f fuel x = none)` embeds
divergence of the source on `x`).
-/

namespace DenoWatch

/-- JS object used as a map from path strings to timestamps
(milliseconds since the epoch).  Keys are unique for every object the
program actually builds (JS object keys are unique); the embedding does
not bake that in, theorems assume it where needed. -/
abbrev Jobj := List (String × Nat)

/-- `o[k]`: first binding of key `k`, if any. -/
def jget : Jobj → String → Option Nat
  | [], _ => none
  | kv :: rest, k => if kv.1 = k then some kv.2 else jget rest k

/-- `k in o` (property present). -/
def jhas (o : Jobj) (k : String) : Bool := (jget o k).isSome

/-- `o[k] = v`: JS property write.  Updating an existing key keeps its
position in `Object.keys` order; a new key is appended. -/
def jset (o : Jobj) (k : String) (v : Nat) : Jobj :=
  if jhas o k then o.map (fun kv => if kv.1 = k then (k, v) else kv)
  else o ++ [(k, v)]

/-- `delete o[k]`. -/
def jdel : Jobj → String → Jobj
  | [], _ => []
  | kv :: rest, k => if kv.1 = k then jdel rest k else kv :: jdel rest k

/-- `Object.keys(o)`. -/
def jkeys (o : Jobj) : List String := o.map Prod.fst

/-- JS truthiness of a possibly-undefined number: `undefined` and `0`
are falsy. -/
def jsTruthyN : Option Nat → Bool
  | none => false
  | some n => n != 0

/-- JS truthiness of a possibly-undefined string: `undefined` and `""`
are falsy. -/
def jsTruthyS : Option String → Bool
  | none => false
  | some s => s != ""

/-- JS `a || b` for a possibly-undefined string `a`. -/
def jsOrS (a : Option String) (b : String) : String :=
  match a with
  | none => b
  | some s => if s = "" then b else s

/-- JS `a < b` where `a` is a possibly-undefined number (`undefined < b`
is false). -/
def jltN (a : Option Nat) (b : Nat) : Bool :=
  match a with
  | none => false
  | some v => v < b

/-- `FileInfo.isFile() / isDirectory() / isSymlink()`; `other` covers
entries that are none of the three. -/
inductive FileKind
  | file
  | dir
  | symlink
  | other
deriving DecidableEq, Repr

/-- Deno `FileInfo` as consumed by mod.ts: `name` and `path` may be
absent depending on platform and provenance; `modified` may be null;
`created` is modeled as always carrying a number. -/
structure FileInfo where
  name : Option String
  path : Option String
  kind : FileKind
  modified : Option Nat
  created : Nat
deriving DecidableEq, Repr

/-- `info.modified || info.created` (JS `||`: null and 0 are falsy). -/
def mtimeOf (i : FileInfo) : Nat :=
  match i.modified with
  | none => i.created
  | some m => if m = 0 then i.created else m

/-- Kinds of `DenoError` relevant to mod.ts: the catch clauses test
`e.kind === ErrorKind.NotFound`; everything else is rethrown. -/
inductive FsErr
  | notFound
  | permissionDenied
  | ioError
deriving DecidableEq, Repr

/-- The filesystem accessor: `lstat`/`lstatSync`, `readlink`/
`readlinkSync`, `readDir`/`readDirSync` (each sync/async pair behaves
identically, so one function embeds both). -/
structure FS where
  lstat : String → Except FsErr FileInfo
  readlink : String → Except FsErr String
  readDir : String → Except FsErr (List FileInfo)

/-- `statTraverse` / `statTraverseSync` (mod.ts:319-338, both bodies are
textually identical modulo async): follow a symlink chain to its
terminal entry, then patch `info.path = info.path || path`.  The source
recursion is unbounded; `none` means it did not finish within `fuel`. -/
def statTraverse (fs : FS) : Nat → String → Option (Except FsErr FileInfo)
  | 0, _ => none
  | fuel + 1, path =>
    match fs.lstat path with
    | .error e => some (.error e)
    | .ok info =>
      if info.kind = .symlink then
        match fs.readlink path with
        | .error e => some (.error e)
        | .ok targetPath => statTraverse fs fuel targetPath
      else
        some (.ok { info with path := some (jsOrS info.path path) })

/-- `path.split("/")` on the underlying character list. -/
def splitSegs : List Char → List (List Char)
  | [] => [[]]
  | c :: rest =>
    match splitSegs rest, decide (c = '/') with
    | r, true => [] :: r
    | [], false => [[c]]
    | s :: r, false => (c :: s) :: r

/-- `splitted[splitted.length - 1]`: the last segment of a
`/`-separated path (`splitSegs` never returns an empty list). -/
def lastSeg (s : String) : String :=
  String.mk ((splitSegs s.data).getLastD [])

/-- `/^\.[^.]+/.test(name)`: starts with a dot followed by at least one
non-dot character. -/
def isDotName (s : String) : Bool :=
  match s.data with
  | '.' :: c :: _ => c != '.'
  | _ => false

/-- `DetectorOptions` after merging with the defaults: the two regexes
are embedded as the predicates they decide (the default `test`, `/.*/`,
is `fun _ => true`; the default `ignore`, `/$^/`, is `fun _ => false`).  -/
structure DetectorOptions where
  followSymlink : Bool
  ignoreDotFiles : Bool
  test : String → Bool
  ignore : String → Bool

/-- `makeFilter` (mod.ts:195-216). -/
def makeFilter (opts : DetectorOptions) : FileInfo → String → Bool :=
  fun f path =>
    if opts.ignoreDotFiles && isDotName (jsOrS f.name (lastSeg path)) then false
    else if f.kind = .file then opts.test path && !opts.ignore path
    else true

/-- The mixed `(string | FileInfo)[]` element type of `walk`/`collect`
targets. -/
inductive Target
  | str (p : String)
  | entry (f : FileInfo)
deriving DecidableEq, Repr

/-- Outcome thrown out of a `walk`/`collect` iteration: a rethrown
`DenoError`, or the `new Error("path not found")` of mod.ts:251/305. -/
inductive WalkErr
  | fsErr (e : FsErr)
  | pathNotFound
deriving DecidableEq, Repr

/-- Result of the try-block of one loop iteration of `walk`/`collect`:
`skip` is the caught-`NotFound` `continue`, `abort` a rethrown error. -/
inductive Resolved
  | skip
  | abort (e : WalkErr)
  | ok (path : Option String) (linkPath : Option String) (info : FileInfo)
deriving DecidableEq, Repr

/-- The mutable state shared by one `detectChanges` cycle: `prev` and
`curr` objects plus the `added`/`modified` lists of the `Changes`
object (`deleted` is filled in afterwards from what is left of `prev`,
mod.ts:187). -/
structure WalkSt where
  prev : Jobj
  curr : Jobj
  added : List String
  modified : List String
deriving DecidableEq, Repr

/-- The file branch of `walk` (mod.ts:259-270):

```
if (curr[path]) continue;
curr[path] = info.modified || info.created;
if (!prev[path]) changes.added.push(path);
else if (prev[path] < curr[path]) changes.modified.push(path);
delete prev[path];
```
-/
def fileStep (st : WalkSt) (path : String) (ts : Nat) : WalkSt :=
  if jsTruthyN (jget st.curr path) then st
  else
    { prev := jdel st.prev path
      curr := jset st.curr path ts
      added := if jsTruthyN (jget st.prev path) then st.added else st.added ++ [path]
      modified :=
        if jsTruthyN (jget st.prev path) && jltN (jget st.prev path) ts then
          st.modified ++ [path]
        else st.modified }

/-- The try-block of one `walk` iteration (mod.ts:231-249): resolve the
target to `(path, linkPath, info)`, catching `NotFound`. -/
def resolveWalk (fs : FS) (follow : Bool) (fuel : Nat) : Target → Option Resolved
  | .str p =>
    match (if follow then statTraverse fs fuel p else some (fs.lstat p)) with
    | none => none
    | some (.error .notFound) => some .skip
    | some (.error e) => some (.abort (.fsErr e))
    | some (.ok info) => some (.ok (some p) none info)
  | .entry f =>
    if f.kind = .symlink ∧ follow = true then
      match statTraverse fs fuel (f.path.getD "") with
      | none => none
      | some (.error .notFound) => some .skip
      | some (.error e) => some (.abort (.fsErr e))
      | some (.ok info) => some (.ok info.path f.path info)
    else some (.ok f.path none f)

/-- `walk` (mod.ts:218-273).  The source schedules sibling directory
recursions as promises over the same shared `prev`/`curr`/`changes` and
awaits them with `Promise.all`; the runtime is single-threaded and the
file branch contains no `await`, so each file step is atomic.  The
embedding runs the recursions in program order (for error-free runs the
resulting state is the interleaving-independent one; for aborting runs
it stops at the first error, where the source might still process
already-scheduled siblings — theorems about aborting runs only use
facts that are stable under more steps).  `none` = out of fuel. -/
def walk (fs : FS) (follow : Bool) (filter : FileInfo → String → Bool) :
    Nat → List Target → WalkSt → Option (WalkSt × Option WalkErr)
  | _, [], st => some (st, none)
  | 0, _ :: _, _ => none
  | fuel + 1, t :: rest, st =>
    match resolveWalk fs follow (fuel + 1) t with
    | none => none
    | some .skip => walk fs follow filter fuel rest st
    | some (.abort e) => some (st, some e)
    | some (.ok pathOpt linkPath info) =>
      if jsTruthyS pathOpt then
        if filter info (jsOrS linkPath (pathOpt.getD "")) then
          match info.kind with
          | .dir =>
            match fs.readDir (pathOpt.getD "") with
            | .error e => some (st, some (.fsErr e))
            | .ok children =>
              match walk fs follow filter fuel (children.map .entry) st with
              | none => none
              | some (st1, some e) => some (st1, some e)
              | some (st1, none) => walk fs follow filter fuel rest st1
          | .file => walk fs follow filter fuel rest (fileStep st (pathOpt.getD "") (mtimeOf info))
          | _ => walk fs follow filter fuel rest st
        else walk fs follow filter fuel rest st
      else some (st, some .pathNotFound)

/-- The try-block of one `collect` iteration (mod.ts:285-303).  Unlike
`walk`, the symlink-entry branch keys by the one-step
`readlinkSync(f.path)` result and stats from there. -/
def resolveCollect (fs : FS) (follow : Bool) (fuel : Nat) : Target → Option Resolved
  | .str p =>
    match (if follow then statTraverse fs fuel p else some (fs.lstat p)) with
    | none => none
    | some (.error .notFound) => some .skip
    | some (.error e) => some (.abort (.fsErr e))
    | some (.ok info) => some (.ok (some p) none info)
  | .entry f =>
    if f.kind = .symlink ∧ follow = true then
      match fs.readlink (f.path.getD "") with
      | .error .notFound => some .skip
      | .error e => some (.abort (.fsErr e))
      | .ok p2 =>
        match statTraverse fs fuel p2 with
        | none => none
        | some (.error .notFound) => some .skip
        | some (.error e) => some (.abort (.fsErr e))
        | some (.ok info) => some (.ok (some p2) f.path info)
    else some (.ok f.path none f)

/-- `collect` (mod.ts:275-316): the synchronous seeding traversal,
writing `all[path] = info.modified || info.created` for every accepted
file.  `none` = out of fuel. -/
def collect (fs : FS) (follow : Bool) (filter : FileInfo → String → Bool) :
    Nat → List Target → Jobj → Option (Jobj × Option WalkErr)
  | _, [], all => some (all, none)
  | 0, _ :: _, _ => none
  | fuel + 1, t :: rest, all =>
    match resolveCollect fs follow (fuel + 1) t with
    | none => none
    | some .skip => collect fs follow filter fuel rest all
    | some (.abort e) => some (all, some e)
    | some (.ok pathOpt linkPath info) =>
      if jsTruthyS pathOpt then
        if filter info (jsOrS linkPath (pathOpt.getD "")) then
          match info.kind with
          | .dir =>
            match fs.readDir (pathOpt.getD "") with
            | .error e => some (all, some (.fsErr e))
            | .ok children =>
              match collect fs follow filter fuel (children.map .entry) all with
              | none => none
              | some (all1, some e) => some (all1, some e)
              | some (all1, none) => collect fs follow filter fuel rest all1
          | .file => collect fs follow filter fuel rest (jset all (pathOpt.getD "") (mtimeOf info))
          | _ => collect fs follow filter fuel rest all
        else collect fs follow filter fuel rest all
      else some (all, some .pathNotFound)

/-- The `Changes` fields produced by one `detectChanges` cycle
(`startTime`/`endTime` come from `Date.now()` and are outside this
state-level model; the scheduling model below carries them). -/
structure Changes where
  added : List String
  modified : List String
  deleted : List String
  fileCount : Nat
deriving DecidableEq, Repr

/-- The `Detector` class state (mod.ts:158-160). -/
structure Detector where
  files : Jobj
  targets : List String
  options : DetectorOptions

/-- `Detector.init` (mod.ts:164-172): seed `this.files` via `collect`.
`collect` mutates `this.files` in place, so on an abort the partially
filled object remains.  The returned `Changes`-shaped value of the
source carries only times and `fileCount`; theorems use the detector
state. -/
def init (fs : FS) (fuel : Nat) (d : Detector) : Option (Detector × Option WalkErr) :=
  match collect fs d.options.followSymlink (makeFilter d.options) fuel
      (d.targets.map .str) d.files with
  | none => none
  | some (all1, e) => some ({ d with files := all1 }, e)

/-- `Detector.detectChanges` (mod.ts:174-192).  `walk` receives
`this.files` itself as `prev` (not a copy) and deletes consumed keys
from it; on success the remaining keys become `deleted`, and
`this.files` is replaced by `newFiles`.  On an abort the error
propagates and `this.files` keeps the partially consumed object. -/
def detectChanges (fs : FS) (fuel : Nat) (d : Detector) :
    Option (Except (Detector × WalkErr) (Detector × Changes)) :=
  match walk fs d.options.followSymlink (makeFilter d.options) fuel
      (d.targets.map .str) ⟨d.files, [], [], []⟩ with
  | none => none
  | some (st, some e) => some (.error ({ d with files := st.prev }, e))
  | some (st, none) =>
    some (.ok ({ d with files := st.curr },
      { added := st.added, modified := st.modified,
        deleted := jkeys st.prev, fileCount := st.curr.length }))

/-- The `Changes` object as consumed by the scheduling loop `run`:
its `startTime` and the three lists behind the `length` getter. -/
structure Report where
  startTime : Int
  added : List String
  modified : List String
  deleted : List String
deriving DecidableEq, Repr

/-- `Changes.length`: `added.length + modified.length + deleted.length`. -/
def Report.len (c : Report) : Nat :=
  c.added.length + c.modified.length + c.deleted.length

/-- The while-loop of `run` (mod.ts:142-154) for the iterations it
executes: each iteration computes
`waitTime = Math.max(0, interval - (Date.now() - lastStartTime))`,
runs `detectChanges`, sets `lastStartTime = changes.startTime`
unconditionally, and yields `changes` only when `changes.length` is
nonzero.  `Date.now()` readings and `detectChanges` outcomes vary with
the outside world, so they enter as the oracle list `cycles` (one
`(now, changes)` pair per iteration); cancellation (`state.abort` /
`state.timeout`) is event-loop behaviour outside this model.  Returns
the list of waits used and the list of yielded reports. -/
def run (interval : Int) : Int → List (Int × Report) → List Int × List Report
  | _, [] => ([], [])
  | lastStartTime, (now, ch) :: rest =>
    let waitTime := max 0 (interval - (now - lastStartTime))
    let r := run interval ch.startTime rest
    (waitTime :: r.1, if ch.len != 0 then ch :: r.2 else r.2)

/-! ## Association-list (JS object) toolkit -/

theorem jget_map_update (o : Jobj) (k q : String) (v : Nat) (hq : q ≠ k) :
    jget (o.map (fun kv => if kv.1 = k then (k, v) else kv)) q = jget o q := by
  induction o with
  | nil => simp [jget]
  | cons kv rest ih =>
    obtain ⟨a, b⟩ := kv
    by_cases hk : a = k
    · have hkq : ¬k = q := fun h => hq h.symm
      have haq : ¬a = q := by rw [hk]; exact hkq
      simp [jget, hk, hkq, haq, ih]
    · by_cases haq : a = q
      · subst haq
        simp [jget, hk]
      · simp [jget, hk, haq, ih]

theorem jget_append_single_ne (o : Jobj) (k q : String) (v : Nat) (hq : q ≠ k) :
    jget (o ++ [(k, v)]) q = jget o q := by
  have hkq : ¬k = q := fun h => hq h.symm
  induction o with
  | nil => simp [jget, hkq]
  | cons kv rest ih =>
    by_cases hk : kv.1 = q <;> simp [jget, hk, ih]

theorem jget_map_update_self (o : Jobj) (k : String) (v : Nat) (h : jhas o k = true) :
    jget (o.map (fun kv => if kv.1 = k then (k, v) else kv)) k = some v := by
  unfold jhas at h
  induction o with
  | nil => simp [jget] at h
  | cons kv rest ih =>
    by_cases hk : kv.1 = k
    · simp [jget, hk]
    · simp only [jget, hk, if_false, Bool.if_false_left] at h
      simp only [List.map_cons, hk, if_false, jget]
      exact ih h

theorem jget_append_single_self (o : Jobj) (k : String) (v : Nat) (h : jhas o k = false) :
    jget (o ++ [(k, v)]) k = some v := by
  unfold jhas at h
  induction o with
  | nil => simp [jget]
  | cons kv rest ih =>
    by_cases hk : kv.1 = k
    · simp [jget, hk] at h
    · simp only [jget, hk, if_false] at h
      simp only [List.cons_append, jget, hk, if_false]
      exact ih h

theorem jget_jset_self (o : Jobj) (k : String) (v : Nat) :
    jget (jset o k v) k = some v := by
  unfold jset
  split
  · exact jget_map_update_self o k v (by assumption)
  · rename_i h
    exact jget_append_single_self o k v (by simpa using h)

theorem jget_jset_ne (o : Jobj) (k q : String) (v : Nat) (hq : q ≠ k) :
    jget (jset o k v) q = jget o q := by
  unfold jset
  split
  · exact jget_map_update o k q v hq
  · exact jget_append_single_ne o k q v hq

theorem jget_jdel (o : Jobj) (k q : String) :
    jget (jdel o k) q = if q = k then none else jget o q := by
  induction o with
  | nil => simp [jget, jdel]
  | cons kv rest ih =>
    obtain ⟨a, b⟩ := kv
    by_cases hk : a = k
    · rw [show jdel ((a, b) :: rest) k = jdel rest k by simp [jdel, hk], ih]
      by_cases hq : q = k
      · simp [hq]
      · have haq : ¬a = q := by rw [hk]; exact fun h => hq h.symm
        simp [hq, jget, haq]
    · rw [show jdel ((a, b) :: rest) k = (a, b) :: jdel rest k by simp [jdel, hk]]
      by_cases haq : a = q
      · have hq : ¬q = k := by rw [← haq]; exact hk
        simp [jget, haq, hq]
      · simp [jget, haq, ih]

theorem jdel_sublist (o : Jobj) (k : String) : List.Sublist (jdel o k) o := by
  induction o with
  | nil => simp [jdel]
  | cons kv rest ih =>
    by_cases hk : kv.1 = k
    · simpa [jdel, hk] using List.Sublist.cons kv ih
    · simpa [jdel, hk] using List.Sublist.cons₂ kv ih

theorem jget_eq_some_mem (o : Jobj) (p : String) (v : Nat) (h : jget o p = some v) :
    (p, v) ∈ o := by
  induction o with
  | nil => simp [jget] at h
  | cons kv rest ih =>
    obtain ⟨a, b⟩ := kv
    by_cases hk : a = p
    · simp only [jget, hk, if_true, Option.some.injEq] at h
      rw [List.mem_cons]
      left
      rw [← hk, ← h]
    · simp only [jget, hk, if_false] at h
      exact List.mem_cons_of_mem (a, b) (ih h)

theorem jget_isSome_iff (o : Jobj) (p : String) :
    (jget o p).isSome = true ↔ p ∈ jkeys o := by
  induction o with
  | nil => simp [jget, jkeys]
  | cons kv rest ih =>
    obtain ⟨a, b⟩ := kv
    by_cases hk : a = p
    · simp [jget, jkeys, hk]
    · have hpk : ¬p = a := fun h => hk h.symm
      simp only [jget, hk, if_false, jkeys, List.map_cons]
      rw [List.mem_cons]
      simp only [hpk, false_or]
      exact ih

theorem jget_filter_some (o : Jobj) (q : String × Nat → Bool) (p : String) (v : Nat)
    (h : jget (o.filter q) p = some v) : q (p, v) = true := by
  induction o with
  | nil => simp [jget] at h
  | cons kv rest ih =>
    rw [List.filter_cons] at h
    by_cases hq : q kv = true
    · rw [if_pos hq] at h
      by_cases hk : kv.1 = p
      · simp only [jget, hk, if_true, Option.some.injEq] at h
        rwa [← hk, ← h, Prod.mk.eta]
      · simp only [jget, hk, if_false] at h
        exact ih h
    · rw [if_neg hq] at h
      exact ih h

theorem jget_filter_of_all (o : Jobj) (q : String × Nat → Bool) (p : String)
    (h : ∀ v, q (p, v) = true) : jget (o.filter q) p = jget o p := by
  induction o with
  | nil => simp
  | cons kv rest ih =>
    rw [List.filter_cons]
    by_cases hk : kv.1 = p
    · have : q kv = true := by rw [← Prod.mk.eta (p := kv), hk]; exact h kv.2
      simp [this, jget, hk]
    · by_cases hq : q kv = true <;> simp [hq, jget, hk, ih]

theorem filter_isNone_jset (P curr : Jobj) (path : String) (ts : Nat) :
    P.filter (fun kv => (jget (jset curr path ts) kv.1).isNone) =
    jdel (P.filter (fun kv => (jget curr kv.1).isNone)) path := by
  induction P with
  | nil => simp [jdel]
  | cons kv P ih =>
    rw [List.filter_cons, List.filter_cons]
    by_cases hk : kv.1 = path
    · have h1 : (jget (jset curr path ts) kv.1).isNone = false := by
        rw [hk, jget_jset_self]
        rfl
      rw [h1]
      simp only [Bool.false_eq_true, if_false]
      by_cases hc : (jget curr kv.1).isNone = true
      · rw [if_pos hc, show jdel (kv :: List.filter (fun kv => (jget curr kv.1).isNone) P) path =
            jdel (List.filter (fun kv => (jget curr kv.1).isNone) P) path from by simp [jdel, hk]]
        exact ih
      · rw [if_neg hc]
        exact ih
    · rw [jget_jset_ne curr path kv.1 ts hk]
      by_cases hc : (jget curr kv.1).isNone = true
      · rw [if_pos hc, if_pos hc, show jdel (kv :: List.filter
            (fun kv => (jget curr kv.1).isNone) P) path =
            kv :: jdel (List.filter (fun kv => (jget curr kv.1).isNone) P) path from by
          simp [jdel, hk]]
        rw [ih]
      · rw [if_neg hc, if_neg hc]
        exact ih

theorem filter_isNone_empty (P : Jobj) :
    P.filter (fun kv => (jget ([] : Jobj) kv.1).isNone) = P := by
  rw [show (fun kv : String × Nat => (jget ([] : Jobj) kv.1).isNone) = fun _ => true from
    funext (fun _ => rfl)]
  exact List.filter_true P

/-- A successful `statTraverse` returns an `lstat` result, with only the
`path` field patched. -/
theorem statTraverse_ok (fs : FS) :
    ∀ fuel p info, statTraverse fs fuel p = some (.ok info) →
      ∃ q i0, fs.lstat q = .ok i0 ∧ info = { i0 with path := some (jsOrS i0.path q) } := by
  intro fuel
  induction fuel with
  | zero =>
    intro p info h
    simp [statTraverse] at h
  | succ n ih =>
    intro p info h
    rw [statTraverse] at h
    split at h
    · simp at h
    · rename_i i hl
      split at h
      · split at h
        · simp at h
        · rename_i t hr
          exact ih t info h
      · simp only [Option.some.injEq, Except.ok.injEq] at h
        exact ⟨p, i, hl, h.symm⟩

theorem entry_mem_map (children : List FileInfo) (f : FileInfo)
    (h : Target.entry f ∈ children.map Target.entry) : f ∈ children := by
  obtain ⟨a, ha, hae⟩ := List.mem_map.mp h
  injection hae with h2
  rwa [← h2]

/-- Every timestamp that `resolveWalk` can hand to the file branch comes
from an `lstat` result or from a directory-listing entry of the target
list. -/
theorem resolveWalk_tsOK (tsOK : Nat → Prop) (fs : FS) (follow : Bool) (fuel : Nat) (t : Target)
    (hlstat : ∀ p i, fs.lstat p = .ok i → tsOK (mtimeOf i))
    (hent : ∀ f, t = .entry f → tsOK (mtimeOf f))
    (pathOpt linkPath : Option String) (info : FileInfo)
    (h : resolveWalk fs follow fuel t = some (.ok pathOpt linkPath info)) :
    tsOK (mtimeOf info) := by
  have hstat : ∀ p i, statTraverse fs fuel p = some (.ok i) → tsOK (mtimeOf i) := by
    intro p i hs
    obtain ⟨q, i0, hq, hi⟩ := statTraverse_ok fs fuel p i hs
    have : mtimeOf i = mtimeOf i0 := by rw [hi]; rfl
    rw [this]
    exact hlstat q i0 hq
  cases t with
  | str p =>
    simp only [resolveWalk] at h
    cases follow with
    | true =>
      simp only [if_true] at h
      cases hs : statTraverse fs fuel p with
      | none => rw [hs] at h; simp at h
      | some r =>
        rw [hs] at h
        match r with
        | .error .notFound => simp at h
        | .error .permissionDenied => simp at h
        | .error .ioError => simp at h
        | .ok i =>
          simp only [Option.some.injEq, Resolved.ok.injEq] at h
          rw [← h.2.2]
          exact hstat p i hs
    | false =>
      simp only [Bool.false_eq_true, if_false] at h
      cases hl : fs.lstat p with
      | error e =>
        rw [hl] at h
        match e with
        | .notFound => simp at h
        | .permissionDenied => simp at h
        | .ioError => simp at h
      | ok i =>
        rw [hl] at h
        simp only [Option.some.injEq, Resolved.ok.injEq] at h
        rw [← h.2.2]
        exact hlstat p i hl
  | entry f =>
    simp only [resolveWalk] at h
    by_cases hc : f.kind = FileKind.symlink ∧ follow = true
    · rw [if_pos hc] at h
      cases hs : statTraverse fs fuel (f.path.getD "") with
      | none => rw [hs] at h; simp at h
      | some r =>
        rw [hs] at h
        match r with
        | .error .notFound => simp at h
        | .error .permissionDenied => simp at h
        | .error .ioError => simp at h
        | .ok i =>
          simp only [Option.some.injEq, Resolved.ok.injEq] at h
          rw [← h.2.2]
          exact hstat (f.path.getD "") i hs
    · rw [if_neg hc] at h
      simp only [Option.some.injEq, Resolved.ok.injEq] at h
      rw [← h.2.2]
      exact hent f rfl

/-- Generic preservation: any predicate `Q` on the shared cycle state
that survives one file step (for every timestamp the filesystem can
produce) survives a whole `walk`, aborted or not. -/
theorem walk_pres (fs : FS) (follow : Bool) (filter : FileInfo → String → Bool)
    (Q : WalkSt → Prop) (tsOK : Nat → Prop)
    (hlstat : ∀ p i, fs.lstat p = .ok i → tsOK (mtimeOf i))
    (hdir : ∀ p l, fs.readDir p = .ok l → ∀ f ∈ l, tsOK (mtimeOf f))
    (hstep : ∀ st path ts, Q st → tsOK ts → Q (fileStep st path ts)) :
    ∀ fuel targets st st1 e,
      (∀ f, Target.entry f ∈ targets → tsOK (mtimeOf f)) →
      Q st → walk fs follow filter fuel targets st = some (st1, e) → Q st1 := by
  intro fuel
  induction fuel with
  | zero =>
    intro targets st st1 e ht hq h
    cases targets with
    | nil =>
      simp only [walk, Option.some.injEq, Prod.mk.injEq] at h
      rw [← h.1]
      exact hq
    | cons t rest => simp [walk] at h
  | succ n ih =>
    intro targets st st1 e ht hq h
    cases targets with
    | nil =>
      simp only [walk, Option.some.injEq, Prod.mk.injEq] at h
      rw [← h.1]
      exact hq
    | cons t rest =>
      have htr : ∀ f, Target.entry f ∈ rest → tsOK (mtimeOf f) :=
        fun f hf => ht f (List.mem_cons_of_mem t hf)
      rw [walk] at h
      cases hres : resolveWalk fs follow (n + 1) t with
      | none => rw [hres] at h; simp at h
      | some r =>
        rw [hres] at h
        cases r with
        | skip => exact ih rest st st1 e htr hq h
        | abort e2 =>
          simp only [Option.some.injEq, Prod.mk.injEq] at h
          rw [← h.1]
          exact hq
        | ok pathOpt linkPath info =>
          dsimp only at h
          by_cases hp : jsTruthyS pathOpt = true
          · rw [if_pos hp] at h
            by_cases hfil : filter info (jsOrS linkPath (pathOpt.getD "")) = true
            · rw [if_pos hfil] at h
              cases hkind : info.kind with
              | dir =>
                rw [hkind] at h
                dsimp only at h
                cases hrd : fs.readDir (pathOpt.getD "") with
                | error e2 =>
                  rw [hrd] at h
                  simp only [Option.some.injEq, Prod.mk.injEq] at h
                  rw [← h.1]
                  exact hq
                | ok children =>
                  rw [hrd] at h
                  dsimp only at h
                  cases hw : walk fs follow filter n (children.map .entry) st with
                  | none => rw [hw] at h; simp at h
                  | some pr =>
                    rw [hw] at h
                    obtain ⟨st2, e2⟩ := pr
                    have hq2 : Q st2 := ih (children.map .entry) st st2 e2
                      (fun f hf => hdir (pathOpt.getD "") children hrd f
                        (entry_mem_map children f hf)) hq hw
                    cases e2 with
                    | some e3 =>
                      simp only [Option.some.injEq, Prod.mk.injEq] at h
                      rw [← h.1]
                      exact hq2
                    | none => exact ih rest st2 st1 e htr hq2 h
              | file =>
                rw [hkind] at h
                dsimp only at h
                have hts : tsOK (mtimeOf info) :=
                  resolveWalk_tsOK tsOK fs follow (n + 1) t hlstat
                    (fun f hf => ht f (by rw [← hf]; exact List.mem_cons_self t rest))
                    pathOpt linkPath info hres
                exact ih rest (fileStep st (pathOpt.getD "") (mtimeOf info)) st1 e htr
                  (hstep st (pathOpt.getD "") (mtimeOf info) hq hts) h
              | symlink =>
                rw [hkind] at h
                dsimp only at h
                exact ih rest st st1 e htr hq h
              | other =>
                rw [hkind] at h
                dsimp only at h
                exact ih rest st st1 e htr hq h
            · rw [if_neg hfil] at h
              exact ih rest st st1 e htr hq h
          · rw [if_neg hp] at h
            simp only [Option.some.injEq, Prod.mk.injEq] at h
            rw [← h.1]
            exact hq

/-! ## Disjointness of the three change lists (no assumptions on timestamps) -/

/-- Invariant of one cycle relative to the starting `prev` object `P`:
`prev` is exactly `P` minus the keys recorded in `curr`; every path
pushed to `added` is recorded in `curr`; every path pushed to
`modified` is recorded with a nonzero timestamp; and `added` and
`modified` are disjoint. -/
def DisjInv (P : Jobj) (st : WalkSt) : Prop :=
  st.prev = P.filter (fun kv => (jget st.curr kv.1).isNone) ∧
  (∀ p ∈ st.added, (jget st.curr p).isSome = true) ∧
  (∀ p ∈ st.modified, ∃ t, jget st.curr p = some t ∧ t ≠ 0) ∧
  (∀ p, p ∈ st.added → p ∈ st.modified → False)

theorem fileStep_disj (P : Jobj) (st : WalkSt) (path : String) (ts : Nat)
    (h : DisjInv P st) : DisjInv P (fileStep st path ts) := by
  obtain ⟨h1, h2, h3, h4⟩ := h
  unfold fileStep
  by_cases hc : jsTruthyN (jget st.curr path) = true
  · rw [if_pos hc]
    exact ⟨h1, h2, h3, h4⟩
  · rw [if_neg hc]
    have hcn : jget st.curr path = none ∨ jget st.curr path = some 0 := by
      cases hg : jget st.curr path with
      | none => exact Or.inl rfl
      | some v =>
        unfold jsTruthyN at hc
        rw [hg] at hc
        simp at hc
        rw [hc]
        exact Or.inr rfl
    refine ⟨?_, ?_, ?_, ?_⟩
    · show jdel st.prev path = _
      rw [filter_isNone_jset, ← h1]
    · show ∀ p ∈ (if jsTruthyN (jget st.prev path) = true then st.added
          else st.added ++ [path]), (jget (jset st.curr path ts) p).isSome = true
      intro p hp
      by_cases hpp : p = path
      · rw [hpp, jget_jset_self]
        rfl
      · rw [jget_jset_ne st.curr path p ts hpp]
        apply h2
        by_cases ht : jsTruthyN (jget st.prev path) = true
        · rwa [if_pos ht] at hp
        · rw [if_neg ht] at hp
          rcases List.mem_append.mp hp with hp2 | hp2
          · exact hp2
          · exact absurd (List.mem_singleton.mp hp2) hpp
    · show ∀ p ∈ (if (jsTruthyN (jget st.prev path) && jltN (jget st.prev path) ts) = true
          then st.modified ++ [path] else st.modified),
          ∃ t, jget (jset st.curr path ts) p = some t ∧ t ≠ 0
      intro p hp
      by_cases hcond : (jsTruthyN (jget st.prev path) && jltN (jget st.prev path) ts) = true
      · rw [if_pos hcond] at hp
        rcases List.mem_append.mp hp with hp2 | hp2
        · obtain ⟨t, htc, htz⟩ := h3 p hp2
          have hpp : p ≠ path := by
            intro he
            rw [he] at htc
            rcases hcn with hn | hn <;> rw [hn] at htc
            · exact Option.noConfusion htc
            · exact htz (Option.some.inj htc).symm
          rw [jget_jset_ne st.curr path p ts hpp]
          exact ⟨t, htc, htz⟩
        · rw [List.mem_singleton.mp hp2, jget_jset_self]
          have hlt := (Bool.and_eq_true _ _).mp hcond
          refine ⟨ts, rfl, ?_⟩
          unfold jltN at hlt
          unfold jsTruthyN at hlt
          cases hg : jget st.prev path with
          | none => rw [hg] at hlt; simp at hlt
          | some v =>
            rw [hg] at hlt
            have : v < ts := by simpa using hlt.2
            omega
      · rw [if_neg hcond] at hp
        obtain ⟨t, htc, htz⟩ := h3 p hp
        have hpp : p ≠ path := by
          intro he
          rw [he] at htc
          rcases hcn with hn | hn <;> rw [hn] at htc
          · exact Option.noConfusion htc
          · exact htz (Option.some.inj htc).symm
        rw [jget_jset_ne st.curr path p ts hpp]
        exact ⟨t, htc, htz⟩
    · show ∀ p, p ∈ (if jsTruthyN (jget st.prev path) = true then st.added
          else st.added ++ [path]) →
          p ∈ (if (jsTruthyN (jget st.prev path) && jltN (jget st.prev path) ts) = true
          then st.modified ++ [path] else st.modified) → False
      intro p hpa hpm
      by_cases ht : jsTruthyN (jget st.prev path) = true
      · rw [if_pos ht] at hpa
        by_cases hcond : (jsTruthyN (jget st.prev path) && jltN (jget st.prev path) ts) = true
        · rw [if_pos hcond] at hpm
          rcases List.mem_append.mp hpm with hp2 | hp2
          · exact h4 p hpa hp2
          · -- p = path was pushed to modified: prev[path] is truthy, so by the
            -- prev-invariant curr[path] is absent, contradicting p ∈ added
            have hpp := List.mem_singleton.mp hp2
            rw [hpp] at hpa
            have hsome := h2 path hpa
            unfold jsTruthyN at ht
            cases hg : jget st.prev path with
            | none => rw [hg] at ht; simp at ht
            | some v =>
              have := jget_filter_some P (fun kv => (jget st.curr kv.1).isNone) path v
                (by rw [← h1]; exact hg)
              simp only [Option.isNone_iff_eq_none] at this
              rw [this] at hsome
              exact Bool.noConfusion hsome
        · rw [if_neg hcond] at hpm
          exact h4 p hpa hpm
      · rw [if_neg ht] at hpa
        have hcond : (jsTruthyN (jget st.prev path) && jltN (jget st.prev path) ts) = false := by
          rw [Bool.and_eq_false_iff]
          left
          exact Bool.not_eq_true _ ▸ (by simpa using ht)
        rw [hcond] at hpm
        simp only [Bool.false_eq_true, if_false] at hpm
        rcases List.mem_append.mp hpa with hp2 | hp2
        · exact h4 p hp2 hpm
        · have hpp := List.mem_singleton.mp hp2
          rw [hpp] at hpm
          obtain ⟨t, htc, htz⟩ := h3 path hpm
          rcases hcn with hn | hn <;> rw [hn] at htc
          · exact Option.noConfusion htc
          · exact htz (Option.some.inj htc).symm

theorem disjInv_start (P : Jobj) : DisjInv P ⟨P, [], [], []⟩ := by
  refine ⟨?_, ?_, ?_, ?_⟩
  · exact (filter_isNone_empty P).symm
  · intro p hp
    simp at hp
  · intro p hp
    simp at hp
  · intro p hp
    simp at hp

theorem walk_disjInv (fs : FS) (follow : Bool) (filter : FileInfo → String → Bool)
    (fuel : Nat) (targets : List Target) (P : Jobj) (st1 : WalkSt) (e : Option WalkErr)
    (h : walk fs follow filter fuel targets ⟨P, [], [], []⟩ = some (st1, e)) :
    DisjInv P st1 :=
  walk_pres fs follow filter (DisjInv P) (fun _ => True)
    (fun _ _ _ => trivial) (fun _ _ _ _ _ => trivial)
    (fun st path ts hq _ => fileStep_disj P st path ts hq)
    fuel targets ⟨P, [], [], []⟩ st1 e (fun _ _ => trivial) (disjInv_start P) h

/-! ## Concrete fixtures used by witnesses and counterexamples -/

/-- The source's default options (mod.ts:75-81): `followSymlink` off,
`ignoreDotFiles` on, `test` matches everything, `ignore` matches
nothing. -/
def optsDefault : DetectorOptions :=
  { followSymlink := false, ignoreDotFiles := true,
    test := fun _ => true, ignore := fun _ => false }

/-- A filesystem holding the single regular file `a`, modified at 5. -/
def oneFS : FS where
  lstat := fun p => if p = "a" then .ok ⟨none, none, .file, some 5, 5⟩ else .error .notFound
  readlink := fun _ => .error .notFound
  readDir := fun _ => .error .notFound

/-- A fresh detector watching `a` on `oneFS` with default options. -/
def oneD : Detector := ⟨[], ["a"], optsDefault⟩

/-- C2: for every ChangeReport produced by a detection cycle, each path
appears in at most one of the three lists added, modified, deleted. -/
theorem C2_report_lists_disjoint (fs : FS) (fuel : Nat) (d d1 : Detector) (ch : Changes)
    (h : detectChanges fs fuel d = some (.ok (d1, ch))) (p : String) :
    ¬(p ∈ ch.added ∧ p ∈ ch.modified) ∧ ¬(p ∈ ch.added ∧ p ∈ ch.deleted) ∧
    ¬(p ∈ ch.modified ∧ p ∈ ch.deleted) := by
  unfold detectChanges at h
  cases hw : walk fs d.options.followSymlink (makeFilter d.options) fuel
      (d.targets.map .str) ⟨d.files, [], [], []⟩ with
  | none =>
    rw [hw] at h
    exact absurd h (by simp)
  | some pr =>
    rw [hw] at h
    obtain ⟨st, e⟩ := pr
    cases e with
    | some e2 => simp at h
    | none =>
      simp only [Option.some.injEq, Except.ok.injEq, Prod.mk.injEq] at h
      obtain ⟨hd1, hch⟩ := h
      obtain ⟨h1, h2, h3, h4⟩ := walk_disjInv fs d.options.followSymlink
        (makeFilter d.options) fuel (d.targets.map .str) d.files st none hw
      have hdel : ∀ q, q ∈ jkeys st.prev → jget st.curr q = none := by
        intro q hq
        have hs := (jget_isSome_iff st.prev q).mpr hq
        cases hg : jget st.prev q with
        | none => rw [hg] at hs; exact Bool.noConfusion hs
        | some v =>
          have hv := jget_filter_some d.files (fun kv => (jget st.curr kv.1).isNone) q v
            (by rw [← h1]; exact hg)
          simpa using hv
      rw [← hch]
      refine ⟨fun hpm => h4 p hpm.1 hpm.2, fun hpd => ?_, fun hpd => ?_⟩
      · have hsome := h2 p hpd.1
        rw [hdel p hpd.2] at hsome
        exact Bool.noConfusion hsome
      · obtain ⟨t, htc, _⟩ := h3 p hpd.1
        rw [hdel p hpd.2] at htc
        exact Option.noConfusion htc

/-- Witness for C2 at a concrete one-file cycle on `oneFS`. -/
theorem C2_report_lists_disjoint_witness :
    ¬(("a" : String) ∈ (Changes.mk ["a"] [] [] 1).added ∧
        ("a" : String) ∈ (Changes.mk ["a"] [] [] 1).modified) ∧
    ¬(("a" : String) ∈ (Changes.mk ["a"] [] [] 1).added ∧
        ("a" : String) ∈ (Changes.mk ["a"] [] [] 1).deleted) ∧
    ¬(("a" : String) ∈ (Changes.mk ["a"] [] [] 1).modified ∧
        ("a" : String) ∈ (Changes.mk ["a"] [] [] 1).deleted) :=
  C2_report_lists_disjoint oneFS 5 oneD ⟨[("a", 5)], ["a"], optsDefault⟩
    (Changes.mk ["a"] [] [] 1) rfl "a"

/-! ## Full classification of a cycle under nonzero timestamps -/

/-- Cycle invariant relative to the starting `prev` object `P`, assuming
every timestamp in play is nonzero: `prev` is `P` minus the keys of
`curr`, `curr` holds only nonzero stamps, and `added`/`modified` hold
exactly the paths the spec classification predicts against `P`. -/
def PosInv (P : Jobj) (st : WalkSt) : Prop :=
  st.prev = P.filter (fun kv => (jget st.curr kv.1).isNone) ∧
  (∀ p v, jget st.curr p = some v → v ≠ 0) ∧
  (∀ p, p ∈ st.added ↔ ((jget st.curr p).isSome = true ∧ jget P p = none)) ∧
  (∀ p, p ∈ st.modified ↔ ∃ t t0, jget st.curr p = some t ∧ jget P p = some t0 ∧ t0 < t)

theorem fileStep_pos (P : Jobj) (st : WalkSt) (path : String) (ts : Nat)
    (hP : ∀ p v, jget P p = some v → v ≠ 0) (hts : ts ≠ 0)
    (h : PosInv P st) : PosInv P (fileStep st path ts) := by
  obtain ⟨h1, h2, h3, h4⟩ := h
  unfold fileStep
  by_cases hc : jsTruthyN (jget st.curr path) = true
  · rw [if_pos hc]
    exact ⟨h1, h2, h3, h4⟩
  · rw [if_neg hc]
    have hcn : jget st.curr path = none := by
      cases hg : jget st.curr path with
      | none => rfl
      | some v =>
        exfalso
        apply hc
        unfold jsTruthyN
        rw [hg]
        simpa using h2 path v hg
    have hprev : jget st.prev path = jget P path := by
      rw [h1]
      apply jget_filter_of_all
      intro v
      simp [hcn]
    refine ⟨?_, ?_, ?_, ?_⟩
    · show jdel st.prev path = _
      rw [filter_isNone_jset, ← h1]
    · show ∀ p v, jget (jset st.curr path ts) p = some v → v ≠ 0
      intro p v hg
      by_cases hpp : p = path
      · rw [hpp, jget_jset_self] at hg
        rw [← Option.some.inj hg]
        exact hts
      · rw [jget_jset_ne st.curr path p ts hpp] at hg
        exact h2 p v hg
    · show ∀ p, p ∈ (if jsTruthyN (jget st.prev path) = true then st.added
          else st.added ++ [path]) ↔
          ((jget (jset st.curr path ts) p).isSome = true ∧ jget P p = none)
      intro p
      rw [hprev]
      cases hPg : jget P path with
      | none =>
        simp only [jsTruthyN, Bool.false_eq_true, if_false]
        by_cases hpp : p = path
        · subst hpp
          simp [jget_jset_self, hPg]
        · rw [jget_jset_ne st.curr path p ts hpp]
          simp only [List.mem_append, List.mem_singleton, hpp, or_false]
          exact h3 p
      | some t0 =>
        have ht0 : t0 ≠ 0 := hP path t0 hPg
        simp only [jsTruthyN, bne_iff_ne, ne_eq, ht0, not_false_eq_true, if_true]
        by_cases hpp : p = path
        · subst hpp
          simp [h3 p, hcn, hPg]
        · rw [jget_jset_ne st.curr path p ts hpp]
          exact h3 p
    · show ∀ p, p ∈ (if (jsTruthyN (jget st.prev path) &&
          jltN (jget st.prev path) ts) = true then st.modified ++ [path]
          else st.modified) ↔
          ∃ t t0, jget (jset st.curr path ts) p = some t ∧ jget P p = some t0 ∧ t0 < t
      intro p
      rw [hprev]
      cases hPg : jget P path with
      | none =>
        simp only [jsTruthyN, Bool.false_and, Bool.false_eq_true, if_false]
        by_cases hpp : p = path
        · subst hpp
          simp [h4 p, hcn, hPg]
        · rw [jget_jset_ne st.curr path p ts hpp]
          exact h4 p
      | some t0 =>
        have ht0 : t0 ≠ 0 := hP path t0 hPg
        have htr : jsTruthyN (some t0) = true := by
          unfold jsTruthyN
          simpa using ht0
        by_cases hlt : t0 < ts
        · have hcond : (jsTruthyN (some t0) && jltN (some t0) ts) = true := by
            rw [htr]
            unfold jltN
            simpa using hlt
          rw [hcond]
          simp only [if_true]
          by_cases hpp : p = path
          · subst hpp
            simp only [List.mem_append, List.mem_singleton, or_true, true_iff]
            exact ⟨ts, t0, jget_jset_self st.curr p ts, hPg, hlt⟩
          · rw [jget_jset_ne st.curr path p ts hpp]
            simp only [List.mem_append, List.mem_singleton, hpp, or_false]
            exact h4 p
        · have hcond : (jsTruthyN (some t0) && jltN (some t0) ts) = false := by
            rw [htr]
            unfold jltN
            simpa using hlt
          rw [hcond]
          simp only [Bool.false_eq_true, if_false]
          by_cases hpp : p = path
          · subst hpp
            constructor
            · intro hm
              obtain ⟨t, t0x, htc, _, _⟩ := (h4 p).mp hm
              rw [hcn] at htc
              exact Option.noConfusion htc
            · intro hm
              obtain ⟨t, t0x, htc, hPx, hltx⟩ := hm
              rw [jget_jset_self] at htc
              rw [hPg] at hPx
              rw [← Option.some.inj htc, ← Option.some.inj hPx] at hltx
              exact absurd hltx hlt
          · rw [jget_jset_ne st.curr path p ts hpp]
            exact h4 p

theorem posInv_start (P : Jobj) : PosInv P ⟨P, [], [], []⟩ := by
  refine ⟨(filter_isNone_empty P).symm, ?_, ?_, ?_⟩
  · intro p v hg
    simp [jget] at hg
  · intro p
    simp [jget]
  · intro p
    simp [jget]

theorem walk_posInv (fs : FS) (follow : Bool) (filter : FileInfo → String → Bool)
    (fuel : Nat) (tgts : List String) (P : Jobj) (st1 : WalkSt) (e : Option WalkErr)
    (hP : ∀ p v, jget P p = some v → v ≠ 0)
    (hlstat : ∀ p i, fs.lstat p = .ok i → mtimeOf i ≠ 0)
    (hdir : ∀ p l, fs.readDir p = .ok l → ∀ f ∈ l, mtimeOf f ≠ 0)
    (h : walk fs follow filter fuel (tgts.map Target.str) ⟨P, [], [], []⟩ = some (st1, e)) :
    PosInv P st1 :=
  walk_pres fs follow filter (PosInv P) (fun ts => ts ≠ 0) hlstat hdir
    (fun st path ts hq hts => fileStep_pos P st path ts hP hts hq)
    fuel (tgts.map Target.str) ⟨P, [], [], []⟩ st1 e
    (by
      intro f hf
      obtain ⟨a, ha, hae⟩ := List.mem_map.mp hf
      exact Target.noConfusion hae)
    (posInv_start P) h

/-- A filesystem holding the single regular file `a` with modification
time 0 (the epoch): a legal stat result whose stored timestamp is falsy
in JS. -/
def zeroFS : FS where
  lstat := fun p => if p = "a" then .ok ⟨none, none, .file, some 0, 0⟩ else .error .notFound
  readlink := fun _ => .error .notFound
  readDir := fun _ => .error .notFound

/-- A fresh detector watching `a` on `zeroFS` with default options. -/
def zeroD : Detector := ⟨[], ["a"], optsDefault⟩

/-- C1 (amended): provided every timestamp of the previous snapshot and
of the walked filesystem is nonzero, a successful `detectChanges` cycle
classifies exactly as the spec says: a path of the new mapping is in
`added` iff absent from the previous snapshot, in `modified` iff present
with a strictly earlier stamp, in no list when present with an
equal-or-later stamp; `deleted` is exactly the previous paths not
observed; and the snapshot afterwards is the walked mapping in its
entirety. -/
theorem C1_classification (fs : FS) (fuel : Nat) (d d1 : Detector) (ch : Changes)
    (hP : ∀ p v, jget d.files p = some v → v ≠ 0)
    (hlstat : ∀ p i, fs.lstat p = .ok i → mtimeOf i ≠ 0)
    (hdir : ∀ p l, fs.readDir p = .ok l → ∀ f ∈ l, mtimeOf f ≠ 0)
    (h : detectChanges fs fuel d = some (.ok (d1, ch))) :
    (∀ p, p ∈ ch.added ↔ ((jget d1.files p).isSome = true ∧ jget d.files p = none)) ∧
    (∀ p, p ∈ ch.modified ↔
      ∃ t t0, jget d1.files p = some t ∧ jget d.files p = some t0 ∧ t0 < t) ∧
    (∀ p t t0, jget d1.files p = some t → jget d.files p = some t0 → t ≤ t0 →
      p ∉ ch.added ∧ p ∉ ch.modified ∧ p ∉ ch.deleted) ∧
    (∀ p, p ∈ ch.deleted ↔ (p ∈ jkeys d.files ∧ jget d1.files p = none)) ∧
    (∀ st e, walk fs d.options.followSymlink (makeFilter d.options) fuel
        (d.targets.map .str) ⟨d.files, [], [], []⟩ = some (st, e) →
      d1.files = st.curr ∧ ch.added = st.added ∧ ch.modified = st.modified ∧
        ch.deleted = jkeys st.prev) := by
  unfold detectChanges at h
  cases hw : walk fs d.options.followSymlink (makeFilter d.options) fuel
      (d.targets.map .str) ⟨d.files, [], [], []⟩ with
  | none =>
    rw [hw] at h
    exact absurd h (by simp)
  | some pr =>
    rw [hw] at h
    obtain ⟨st, e⟩ := pr
    cases e with
    | some e2 => simp at h
    | none =>
      simp only [Option.some.injEq, Except.ok.injEq, Prod.mk.injEq] at h
      obtain ⟨hd1, hch⟩ := h
      obtain ⟨h1, h2, h3, h4⟩ := walk_posInv fs d.options.followSymlink
        (makeFilter d.options) fuel d.targets d.files st none hP hlstat hdir hw
      have hprevnone : ∀ q, q ∈ jkeys st.prev → q ∈ jkeys d.files ∧ jget st.curr q = none := by
        intro q hq
        have hs := (jget_isSome_iff st.prev q).mpr hq
        cases hg : jget st.prev q with
        | none => rw [hg] at hs; exact Bool.noConfusion hs
        | some v =>
          have hvmem := jget_eq_some_mem st.prev q v hg
          rw [h1] at hvmem
          have hmem := List.mem_of_mem_filter hvmem
          have hnone := jget_filter_some d.files
            (fun kv => (jget st.curr kv.1).isNone) q v (by rw [← h1]; exact hg)
          refine ⟨List.mem_map.mpr ⟨(q, v), hmem, rfl⟩, by simpa using hnone⟩
      have hnonemem : ∀ q, q ∈ jkeys d.files → jget st.curr q = none → q ∈ jkeys st.prev := by
        intro q hq hcq
        obtain ⟨kv, hkv, hkvq⟩ := List.mem_map.mp hq
        refine List.mem_map.mpr ⟨kv, ?_, hkvq⟩
        rw [h1]
        refine List.mem_filter.mpr ⟨hkv, ?_⟩
        rw [hkvq, hcq]
        rfl
      rw [← hch, ← hd1]
      refine ⟨h3, h4, ?_, ?_, ?_⟩
      · intro p t t0 hc hp hle
        refine ⟨?_, ?_, ?_⟩
        · intro ha
          have hnone := ((h3 p).mp ha).2
          rw [hp] at hnone
          exact Option.noConfusion hnone
        · intro hm
          obtain ⟨t1, t01, hc1, hp1, hlt1⟩ := (h4 p).mp hm
          rw [hc] at hc1
          rw [hp] at hp1
          rw [← Option.some.inj hc1, ← Option.some.inj hp1] at hlt1
          omega
        · intro hdel
          have := (hprevnone p hdel).2
          rw [hc] at this
          exact Option.noConfusion this
      · intro p
        constructor
        · exact hprevnone p
        · intro hpair
          exact hnonemem p hpair.1 hpair.2
      · intro st2 e2 hw2
        simp only [Option.some.injEq, Prod.mk.injEq] at hw2
        rw [← hw2.1]
        exact ⟨rfl, rfl, rfl, rfl⟩

/-- Counterexample to C1 as stated: on `zeroFS` the file `a` carries
timestamp 0; after `init` the snapshot P is `[("a", 0)]`, and an
immediately following `detectChanges` on the unchanged filesystem
produces the mapping C = `[("a", 0)]` — so `a` is in C and in P with an
equal timestamp — yet the report classifies `a` as added (the source
tests `!prev[path]`, and `0` is falsy in JS). -/
theorem C1_counterexample :
    init zeroFS 5 zeroD = some (⟨[("a", 0)], ["a"], optsDefault⟩, none) ∧
    detectChanges zeroFS 5 ⟨[("a", 0)], ["a"], optsDefault⟩ =
      some (.ok (⟨[("a", 0)], ["a"], optsDefault⟩, ⟨["a"], [], [], 1⟩)) :=
  ⟨rfl, rfl⟩

/-- Witness for C1 at a concrete one-file cycle on `oneFS`. -/
theorem C1_classification_witness :
    ("a" ∈ (Changes.mk ["a"] [] [] 1).added ↔
      ((jget [("a", 5)] "a").isSome = true ∧ jget ([] : Jobj) "a" = none)) :=
  (C1_classification oneFS 5 oneD ⟨[("a", 5)], ["a"], optsDefault⟩ (Changes.mk ["a"] [] [] 1)
    (by intro p v hg; simp [jget] at hg)
    (by
      intro p i hg
      unfold oneFS at hg
      dsimp only at hg
      split at hg
      · cases hg
        decide
      · exact Except.noConfusion hg)
    (by
      intro p l hg
      exact Except.noConfusion hg)
    rfl).1 "a"

/-! ## C3: init followed by detectChanges on an unchanged filesystem -/

/-- Default options with `followSymlink` switched on. -/
def optsFollow : DetectorOptions :=
  { followSymlink := true, ignoreDotFiles := true,
    test := fun _ => true, ignore := fun _ => false }

/-- A directory `d` containing the symlink `d/l2`, which points to the
symlink `l1`, which points to the regular file `f` (modified at 5): a
two-hop symlink chain, unchanged between the two calls.  The `lstat`
results carry no `path` field (the non-linux case the source works
around). -/
def chainFS : FS where
  lstat := fun p =>
    if p = "d" then .ok ⟨none, none, .dir, some 3, 3⟩
    else if p = "d/l2" then .ok ⟨none, none, .symlink, some 4, 4⟩
    else if p = "l1" then .ok ⟨none, none, .symlink, some 4, 4⟩
    else if p = "f" then .ok ⟨none, none, .file, some 5, 5⟩
    else .error .notFound
  readlink := fun p =>
    if p = "d/l2" then .ok "l1"
    else if p = "l1" then .ok "f"
    else .error .notFound
  readDir := fun p =>
    if p = "d" then .ok [⟨some "l2", some "d/l2", .symlink, some 4, 4⟩]
    else .error .notFound

/-- A fresh detector watching `d` on `chainFS` with symlink-following
on. -/
def chainD : Detector := ⟨[], ["d"], optsFollow⟩

/-- C3 fails on the code: `collect` keys the chained symlink by its
first `readlink` hop (`l1`) while `walk` keys it by the terminal path
(`f`), so with the filesystem unchanged between `init` and
`detectChanges` the report is not empty: it contains one added path and
one deleted path. -/
theorem C3_init_then_detect_not_empty :
    init chainFS 9 chainD = some (⟨[("l1", 5)], ["d"], optsFollow⟩, none) ∧
    detectChanges chainFS 9 ⟨[("l1", 5)], ["d"], optsFollow⟩ =
      some (.ok (⟨[("f", 5)], ["d"], optsFollow⟩, ⟨["f"], [], ["l1"], 1⟩)) :=
  ⟨rfl, rfl⟩

/-! ## C4: filter order and scope -/

/-- C4: the filter checks dotfile exclusion first — when enabled, an
entry of any kind whose name (or, failing that, the last segment of the
given path) starts with a dot followed by a non-dot character is
rejected; past that check, a regular file is accepted iff it matches
the include pattern and not the exclude pattern, while any non-file
(directories in particular) is accepted unconditionally. -/
theorem C4_filter_order (opts : DetectorOptions) (f : FileInfo) (path : String) :
    (opts.ignoreDotFiles = true → isDotName (jsOrS f.name (lastSeg path)) = true →
      makeFilter opts f path = false) ∧
    ((opts.ignoreDotFiles = true → isDotName (jsOrS f.name (lastSeg path)) = false) →
      ((f.kind = .file →
        makeFilter opts f path = (opts.test path && !opts.ignore path)) ∧
       (f.kind ≠ .file → makeFilter opts f path = true))) := by
  constructor
  · intro hd hn
    unfold makeFilter
    rw [hd, hn]
    simp
  · intro hdn
    have hcond : (opts.ignoreDotFiles && isDotName (jsOrS f.name (lastSeg path))) = false := by
      cases hdf : opts.ignoreDotFiles with
      | false => simp
      | true => simp [hdn hdf]
    constructor
    · intro hk
      unfold makeFilter
      rw [hcond, hk]
      simp
    · intro hk
      unfold makeFilter
      rw [hcond]
      simp [hk]

/-- Witness for C4: a dot-named directory is rejected; a plain directory
is accepted regardless of patterns. -/
theorem C4_filter_order_witness :
    makeFilter optsDefault ⟨some ".git", none, .dir, none, 0⟩ "x/.git" = false ∧
    makeFilter optsDefault ⟨none, none, .dir, none, 0⟩ "x/sub" = true :=
  ⟨(C4_filter_order optsDefault ⟨some ".git", none, .dir, none, 0⟩ "x/.git").1 rfl rfl,
   ((C4_filter_order optsDefault ⟨none, none, .dir, none, 0⟩ "x/sub").2
      (fun _ => rfl)).2 (by decide)⟩

/-! ## C5: what happens to the snapshot when a cycle aborts -/

/-- A filesystem where `a` stats fine and `b` fails with a permission
error. -/
def cexFS : FS where
  lstat := fun p =>
    if p = "a" then .ok ⟨none, none, .file, some 5, 5⟩
    else if p = "b" then .error .permissionDenied
    else .error .notFound
  readlink := fun _ => .error .notFound
  readDir := fun _ => .error .notFound

/-- A detector over `cexFS` already tracking both files. -/
def cexD : Detector := ⟨[("a", 5), ("b", 7)], ["a", "b"], optsDefault⟩

/-- Counterexample to C5 as stated: `walk` receives `this.files` itself
(no working copy), so when the cycle aborts on `b` the entry for `a`,
already consumed, is gone from the Detector's snapshot: the snapshot
after the failed call differs from the snapshot before it. -/
theorem C5_counterexample :
    detectChanges cexFS 9 cexD =
      some (.error (⟨[("b", 7)], ["a", "b"], optsDefault⟩, .fsErr .permissionDenied)) ∧
    [("b", 7)] ≠ cexD.files :=
  ⟨rfl, by decide⟩

/-- C5 (amended): the diff deletes consumed paths directly from the
Detector's own snapshot object; consequently, if `detectChanges` aborts
with an error, the snapshot afterwards is a sublist of what it was
before the call (consumed entries may be missing; nothing is added or
altered), but not necessarily equal to it. -/
theorem C5_snapshot_on_abort (fs : FS) (fuel : Nat) (d d1 : Detector) (e : WalkErr)
    (h : detectChanges fs fuel d = some (.error (d1, e))) :
    List.Sublist d1.files d.files := by
  unfold detectChanges at h
  cases hw : walk fs d.options.followSymlink (makeFilter d.options) fuel
      (d.targets.map .str) ⟨d.files, [], [], []⟩ with
  | none =>
    rw [hw] at h
    exact absurd h (by simp)
  | some pr =>
    rw [hw] at h
    obtain ⟨st, e2⟩ := pr
    cases e2 with
    | none => simp at h
    | some e3 =>
      simp only [Option.some.injEq, Except.error.injEq, Prod.mk.injEq] at h
      have hsub : List.Sublist st.prev d.files :=
        walk_pres fs d.options.followSymlink (makeFilter d.options)
          (fun s => List.Sublist s.prev d.files) (fun _ => True)
          (fun _ _ _ => trivial) (fun _ _ _ _ _ => trivial)
          (fun s path ts hq _ => by
            unfold fileStep
            by_cases hc : jsTruthyN (jget s.curr path) = true
            · rw [if_pos hc]
              exact hq
            · rw [if_neg hc]
              exact List.Sublist.trans (jdel_sublist s.prev path) hq)
          fuel (d.targets.map .str) ⟨d.files, [], [], []⟩ st (some e3)
          (fun _ _ => trivial) (List.Sublist.refl d.files) hw
      rw [← h.1]
      exact hsub

/-- Witness for C5 (amended) on the aborting `cexFS` cycle. -/
theorem C5_snapshot_on_abort_witness :
    List.Sublist (Detector.mk [("b", 7)] ["a", "b"] optsDefault).files cexD.files :=
  C5_snapshot_on_abort cexFS 9 cexD ⟨[("b", 7)], ["a", "b"], optsDefault⟩
    (.fsErr .permissionDenied) rfl

/-! ## C6: symlink cycles -/

/-- Two symlinks `a` and `b` pointing at each other. -/
def cycFS : FS where
  lstat := fun p =>
    if p = "a" ∨ p = "b" then .ok ⟨none, none, .symlink, none, 0⟩
    else .error .notFound
  readlink := fun p =>
    if p = "a" then .ok "b" else if p = "b" then .ok "a" else .error .notFound
  readDir := fun _ => .error .notFound

/-- C6 fails on the code: on the cycle a → b → a the chain-resolution
routine (`statTraverse`/`statTraverseSync`) recurses without bound —
it produces no outcome under any fuel, the embedding of an unbounded
recursion — and the program has no dedicated cycle error at all. -/
theorem C6_statTraverse_diverges_on_cycle :
    ∀ fuel, statTraverse cycFS fuel "a" = none ∧ statTraverse cycFS fuel "b" = none := by
  intro fuel
  induction fuel with
  | zero => exact ⟨rfl, rfl⟩
  | succ n ih =>
    have ha : statTraverse cycFS (n + 1) "a" = statTraverse cycFS n "b" := rfl
    have hb : statTraverse cycFS (n + 1) "b" = statTraverse cycFS n "a" := rfl
    rw [ha, hb]
    exact ⟨ih.2, ih.1⟩

/-! ## C7: NotFound is swallowed, other stat errors abort the cycle -/

/-- C7: when statting a string target (or a discovered symlink entry,
which is the only entry kind ever statted) fails, a NotFound error is
silently skipped — traversal continues with the remaining targets and
the state untouched — while any other error aborts the whole cycle and
surfaces; likewise in the synchronous `collect` pass. -/
theorem C7_stat_errors (fs : FS) (follow : Bool) (filter : FileInfo → String → Bool)
    (fuel : Nat) (p : String) (f : FileInfo) (rest : List Target) (st : WalkSt) (all : Jobj)
    (e : FsErr) (hl : fs.lstat p = .error e) (hf : f.kind = .symlink) (hp : f.path = some p) :
    (e = .notFound →
      walk fs follow filter (fuel + 1) (.str p :: rest) st = walk fs follow filter fuel rest st ∧
      walk fs true filter (fuel + 1) (.entry f :: rest) st = walk fs true filter fuel rest st ∧
      collect fs follow filter (fuel + 1) (.str p :: rest) all =
        collect fs follow filter fuel rest all) ∧
    (e ≠ .notFound →
      walk fs follow filter (fuel + 1) (.str p :: rest) st = some (st, some (.fsErr e)) ∧
      walk fs true filter (fuel + 1) (.entry f :: rest) st = some (st, some (.fsErr e)) ∧
      collect fs follow filter (fuel + 1) (.str p :: rest) all =
        some (all, some (.fsErr e))) := by
  have hstr : (if follow = true then statTraverse fs (fuel + 1) p else some (fs.lstat p)) =
      some (.error e) := by
    cases follow with
    | true =>
      simp only [if_true]
      rw [statTraverse, hl]
    | false =>
      simp only [Bool.false_eq_true, if_false, hl]
  have hent : statTraverse fs (fuel + 1) (f.path.getD "") = some (.error e) := by
    rw [hp]
    show statTraverse fs (fuel + 1) p = some (.error e)
    rw [statTraverse, hl]
  constructor
  · intro he
    subst he
    refine ⟨?_, ?_, ?_⟩
    · rw [walk]
      have hres : resolveWalk fs follow (fuel + 1) (.str p) = some .skip := by
        simp only [resolveWalk]
        rw [hstr]
      rw [hres]
    · rw [walk]
      have hres : resolveWalk fs true (fuel + 1) (.entry f) = some .skip := by
        simp only [resolveWalk]
        rw [if_pos ⟨hf, by trivial⟩, hent]
      rw [hres]
    · rw [collect]
      have hres : resolveCollect fs follow (fuel + 1) (.str p) = some .skip := by
        simp only [resolveCollect]
        rw [hstr]
      rw [hres]
  · intro he
    have habort : ∀ x : FsErr, x = e →
        (match some (Except.error x : Except FsErr FileInfo) with
          | none => (none : Option Resolved)
          | some (.error .notFound) => some .skip
          | some (.error e2) => some (.abort (.fsErr e2))
          | some (.ok info) => some (.ok (some p) none info)) = some (.abort (.fsErr e)) := by
      intro x hx
      subst hx
      cases x with
      | notFound => exact absurd rfl he
      | permissionDenied => rfl
      | ioError => rfl
    refine ⟨?_, ?_, ?_⟩
    · rw [walk]
      have hres : resolveWalk fs follow (fuel + 1) (.str p) = some (.abort (.fsErr e)) := by
        simp only [resolveWalk]
        rw [hstr]
        cases e with
        | notFound => exact absurd rfl he
        | permissionDenied => rfl
        | ioError => rfl
      rw [hres]
    · rw [walk]
      have hres : resolveWalk fs true (fuel + 1) (.entry f) = some (.abort (.fsErr e)) := by
        simp only [resolveWalk]
        rw [if_pos ⟨hf, by trivial⟩, hent]
        cases e with
        | notFound => exact absurd rfl he
        | permissionDenied => rfl
        | ioError => rfl
      rw [hres]
    · rw [collect]
      have hres : resolveCollect fs follow (fuel + 1) (.str p) = some (.abort (.fsErr e)) := by
        simp only [resolveCollect]
        rw [hstr]
        cases e with
        | notFound => exact absurd rfl he
        | permissionDenied => rfl
        | ioError => rfl
      rw [hres]

/-- Witness for C7: on `cexFS`, a missing target is skipped (leaving an
empty-report run) and a permission error aborts the cycle. -/
theorem C7_stat_errors_witness :
    walk cexFS false (fun _ _ => true) 3 [.str "zzz"] ⟨[], [], [], []⟩ =
      some (⟨[], [], [], []⟩, none) ∧
    walk cexFS false (fun _ _ => true) 3 [.str "b"] ⟨[], [], [], []⟩ =
      some (⟨[], [], [], []⟩, some (.fsErr .permissionDenied)) := by
  constructor
  · rw [((C7_stat_errors cexFS false (fun _ _ => true) 2 "zzz"
      ⟨none, some "zzz", .symlink, none, 0⟩ [] ⟨[], [], [], []⟩ [] .notFound
      rfl rfl rfl).1 rfl).1]
    rfl
  · exact ((C7_stat_errors cexFS false (fun _ _ => true) 2 "b"
      ⟨none, some "b", .symlink, none, 0⟩ [] ⟨[], [], [], []⟩ [] .permissionDenied
      rfl rfl rfl).2 (by decide)).1

/-! ## C9: the scheduling loop -/

/-- C9: a cycle's report is yielded to the consumer iff its total change
count is nonzero; and the cadence clock is reset by every cycle,
yielded or not — the first wait is max(0, interval − (now −
lastStartTime)), the next cycle's wait is computed from this cycle's
startTime, and the waits do not change if every report is replaced by
an empty (zero-change) one with the same startTime. -/
theorem C9_run_emission_and_cadence (interval lastStartTime : Int)
    (cycles : List (Int × Report)) (now : Int) (ch : Report) (rest : List (Int × Report)) :
    (run interval lastStartTime cycles).2 =
      (cycles.map Prod.snd).filter (fun c => c.len != 0) ∧
    (run interval lastStartTime ((now, ch) :: rest)).1 =
      max 0 (interval - (now - lastStartTime)) :: (run interval ch.startTime rest).1 ∧
    (run interval lastStartTime (cycles.map
        (fun nc => (nc.1, Report.mk nc.2.startTime [] [] [])))).1 =
      (run interval lastStartTime cycles).1 := by
  refine ⟨?_, rfl, ?_⟩
  · induction cycles generalizing lastStartTime with
    | nil => rfl
    | cons c rest2 ih =>
      obtain ⟨n2, ch2⟩ := c
      simp only [run, List.map_cons, List.filter_cons]
      rw [ih ch2.startTime]
  · induction cycles generalizing lastStartTime with
    | nil => rfl
    | cons c rest2 ih =>
      obtain ⟨n2, ch2⟩ := c
      simp only [run, List.map_cons]
      rw [ih ch2.startTime]

/-! ## C10: symlink entries are inert when following is off -/

/-- A filesystem with nothing in it. -/
def symFS : FS where
  lstat := fun _ => .error .notFound
  readlink := fun _ => .error .notFound
  readDir := fun _ => .error .notFound

/-- A symlink directory entry as a listing would produce it. -/
def symEntry : FileInfo := ⟨some "s", some "d/s", .symlink, some 4, 4⟩

/-- C10: with symlink-following disabled, a symlink entry obtained from
a directory listing (with a usable path) contributes nothing in either
traversal: it is not statted, not recorded, not recursed into and not
classified — both `walk` and `collect` treat it as a no-op and continue
with the remaining targets unchanged. -/
theorem C10_symlink_entries_inert (fs : FS) (filter : FileInfo → String → Bool)
    (fuel : Nat) (f : FileInfo) (rest : List Target) (st : WalkSt) (all : Jobj)
    (hk : f.kind = .symlink) (hp : jsTruthyS f.path = true) :
    walk fs false filter (fuel + 1) (.entry f :: rest) st = walk fs false filter fuel rest st ∧
    collect fs false filter (fuel + 1) (.entry f :: rest) all =
      collect fs false filter fuel rest all := by
  have hcond : ¬(f.kind = FileKind.symlink ∧ false = true) := fun hc => Bool.noConfusion hc.2
  constructor
  · rw [walk]
    have hresw : resolveWalk fs false (fuel + 1) (.entry f) = some (.ok f.path none f) := by
      simp only [resolveWalk]
      rw [if_neg hcond]
    rw [hresw]
    dsimp only
    rw [if_pos hp]
    by_cases hfil : filter f (jsOrS none (f.path.getD "")) = true
    · rw [if_pos hfil, hk]
    · rw [if_neg hfil]
  · rw [collect]
    have hresc : resolveCollect fs false (fuel + 1) (.entry f) = some (.ok f.path none f) := by
      simp only [resolveCollect]
      rw [if_neg hcond]
    rw [hresc]
    dsimp only
    rw [if_pos hp]
    by_cases hfil : filter f (jsOrS none (f.path.getD "")) = true
    · rw [if_pos hfil, hk]
    · rw [if_neg hfil]

/-- Witness for C10 at a concrete symlink entry. -/
theorem C10_symlink_entries_inert_witness :
    walk symFS false (fun _ _ => true) 3 [.entry symEntry] ⟨[], [], [], []⟩ =
      some (⟨[], [], [], []⟩, none) ∧
    collect symFS false (fun _ _ => true) 3 [.entry symEntry] [] = some ([], none) := by
  have h := C10_symlink_entries_inert symFS (fun _ _ => true) 2 symEntry [] ⟨[], [], [], []⟩ []
    rfl rfl
  exact ⟨by rw [h.1]; rfl, by rw [h.2]; rfl⟩

end DenoWatch
